import Mathlib

/-!
Verification of the `conan-extensions` CCI command scripts
(`cmd_missing_binaries.py`, `cmd_conflicts.py`, `cmd_promote_conan2.py`).

The scripts are orchestration around the host Conan engine: every call into
the engine (`load_graph_requires`, `analyze_binaries`, `report_graph_error`,
`InstallGraph` merge/reduce/order, `conan list`, `art:promote`) is modelled as
an abstract oracle function passed as a parameter.  The scripts' own logic —
grouping references by name, expanding profile permutations, scanning
cppstd/profile loops with their early exits, and accumulating Python-dict
results via `setdefault(...).append(...)` — is embedded directly.
-/

namespace ConanExt

/-- A Conan recipe reference, as constructed by
`RecipeReference(*ref.split("/"))` from a `name/version` string. -/
structure RecipeReference where
  name : String
  version : String
deriving DecidableEq, Repr

/-- `str(reference)` for a name/version reference. -/
def RecipeReference.str (r : RecipeReference) : String :=
  r.name ++ "/" ++ r.version

/-- One entry of `profile_map['profiles']`: a Python dict with the keys read
by the scripts.  Keys that may be absent from the dict are `Option`s
(`none` models the key being absent). -/
structure ProfileInfo where
  host_profile : String
  build_profile : String
  cppstd : List String
  host_options : Option (List String)
  build_options : Option (List String)
  host_settings : Option (List String)
  build_settings : Option (List String)
  host_conf : Option (List String)
  build_conf : Option (List String)
deriving DecidableEq, Repr

/-- `profile_info.setdefault('host_conf', [])` and
`profile_info.setdefault('build_conf', [])` applied to a profile dict. -/
def confDefaults (p : ProfileInfo) : ProfileInfo :=
  { p with host_conf := some (p.host_conf.getD []),
           build_conf := some (p.build_conf.getD []) }

/-- `d.setdefault('host_options', []).append(s)` applied to a profile dict. -/
def appendHostOpt (p : ProfileInfo) (s : String) : ProfileInfo :=
  { p with host_options := some (p.host_options.getD [] ++ [s]) }

/-- The expansion of one base profile dict by `expand_profiles`
(identical in `cmd_missing_binaries.py` and `cmd_conflicts.py`), given
whether the inspected conanfile has a `shared` and a `header_only` option. -/
def expandOne (hasShared hasHeader : Bool) (original : ProfileInfo) : List ProfileInfo :=
  let profile_info := confDefaults original
  let sharedPart :=
    if hasShared then
      let shared_profile_info :=
        if hasHeader then appendHostOpt profile_info "&:header_only=False"
        else profile_info
      [appendHostOpt shared_profile_info "*:shared=True",
       appendHostOpt shared_profile_info "*:shared=False"]
    else []
  let headerPart :=
    if hasHeader then [appendHostOpt profile_info "&:header_only=True"]
    else []
  let plainPart :=
    if !hasShared && !hasHeader then [profile_info] else []
  sharedPart ++ headerPart ++ plainPart

/-- `expand_profiles`: iterate over the base profiles of the profile map
(`profile_map['profiles']` is modelled as the list itself), expanding each. -/
def expand_profiles (hasShared hasHeader : Bool) (profiles : List ProfileInfo) :
    List ProfileInfo :=
  (profiles.map (expandOne hasShared hasHeader)).flatten

/-- Number of expanded profiles produced per base profile, as a function of
the recipe's `shared` / `header_only` options. -/
def expandFactor (hasShared hasHeader : Bool) : Nat :=
  match hasShared, hasHeader with
  | true, true => 3
  | true, false => 2
  | false, true => 1
  | false, false => 1

theorem expandOne_length (hasShared hasHeader : Bool) (p : ProfileInfo) :
    (expandOne hasShared hasHeader p).length = expandFactor hasShared hasHeader := by
  cases hasShared <;> cases hasHeader <;> rfl

theorem expand_profiles_length (hasShared hasHeader : Bool) (profiles : List ProfileInfo) :
    (expand_profiles hasShared hasHeader profiles).length =
      profiles.length * expandFactor hasShared hasHeader := by
  induction profiles with
  | nil => simp [expand_profiles]
  | cons p ps ih =>
    simp only [expand_profiles, List.map_cons, List.flatten_cons, List.length_append,
      List.length_cons] at *
    rw [ih, expandOne_length, Nat.succ_mul, Nat.add_comm]

/-- A sample base profile dict whose `host_conf`/`build_conf` keys are absent. -/
def pW : ProfileInfo :=
  ⟨"gcc11", "gcc11", ["17", "20"], none, none, none, none, none, none⟩

/-- Claim C5 (amended): `expand_profiles` returns exactly `N * k` expanded
profiles, `k` depending only on the recipe's `shared`/`header_only` options
(3 / 2 / 1 / 1); with both options the two shared variants carry
`header_only=False` and respectively `shared=True` / `shared=False` plus a
`header_only=True` variant; with only `shared` the two variants carry
`shared=True` / `shared=False`; with only `header_only` a single
`header_only=True` variant; with neither, the base profile with its
`host_conf`/`build_conf` keys defaulted to empty lists. -/
theorem claim_C5 (hasShared hasHeader : Bool) (profiles : List ProfileInfo) :
    (expand_profiles hasShared hasHeader profiles).length =
      profiles.length * expandFactor hasShared hasHeader ∧
    ∀ p : ProfileInfo,
      (hasShared = true → hasHeader = true →
        ∃ a b c, expandOne hasShared hasHeader p = [a, b, c] ∧
          "*:shared=True" ∈ a.host_options.getD [] ∧
          "&:header_only=False" ∈ a.host_options.getD [] ∧
          "*:shared=False" ∈ b.host_options.getD [] ∧
          "&:header_only=False" ∈ b.host_options.getD [] ∧
          "&:header_only=True" ∈ c.host_options.getD []) ∧
      (hasShared = true → hasHeader = false →
        ∃ a b, expandOne hasShared hasHeader p = [a, b] ∧
          "*:shared=True" ∈ a.host_options.getD [] ∧
          "*:shared=False" ∈ b.host_options.getD []) ∧
      (hasShared = false → hasHeader = true →
        ∃ c, expandOne hasShared hasHeader p = [c] ∧
          "&:header_only=True" ∈ c.host_options.getD []) ∧
      (hasShared = false → hasHeader = false →
        expandOne hasShared hasHeader p = [confDefaults p]) := by
  refine ⟨expand_profiles_length hasShared hasHeader profiles, fun p => ⟨?_, ?_, ?_, ?_⟩⟩
  · rintro rfl rfl
    refine ⟨_, _, _, rfl, ?_, ?_, ?_, ?_, ?_⟩ <;>
      simp [expandOne, appendHostOpt, confDefaults]
  · rintro rfl rfl
    refine ⟨_, _, rfl, ?_, ?_⟩ <;> simp [expandOne, appendHostOpt, confDefaults]
  · rintro rfl rfl
    refine ⟨_, rfl, ?_⟩
    simp [expandOne, appendHostOpt, confDefaults]
  · rintro rfl rfl
    rfl

/-- Witness for claim C5 at a concrete profile map and option pair. -/
theorem claim_C5_witness :
    (expand_profiles true true [pW]).length = 1 * expandFactor true true ∧
    ∃ a b c, expandOne true true pW = [a, b, c] ∧
      "*:shared=True" ∈ a.host_options.getD [] := by
  obtain ⟨h1, h2⟩ := claim_C5 true true [pW]
  obtain ⟨hboth, -, -, -⟩ := h2 pW
  obtain ⟨a, b, c, heq, ha, -, -, -, -⟩ := hboth rfl rfl
  exact ⟨h1, a, b, c, heq, ha⟩

/-- Counterexample to claim C5 as stated: when the recipe has neither option,
the single expanded profile is not the unmodified base profile dict — the
code's `setdefault('host_conf', [])` / `setdefault('build_conf', [])` add
those keys when they are absent from the base dict. -/
theorem claim_C5_counterexample :
    expand_profiles false false [pW] ≠ [pW] := by decide

/-- Python truthiness of an optional string CLI argument
(`None` and `""` are falsy). -/
def pyTruthyStr : Option String → Bool
  | none => false
  | some s => !s.isEmpty

/-- The guard of the `conflicts` command's cache-must-be-empty error branch:
`if False and len(list_output["results"]["Local Cache"]) != 0`. -/
def conflictsCacheGuard (localCacheResults : List String) : Bool :=
  false && decide (localCacheResults.length ≠ 0)

/-- The guard under which `missing_binaries` raises the cache-must-be-empty
`ConanException`: the branch is entered when `not args.missing_packages`,
and raises when `len(list_output["results"]["Local Cache"]) != 0`. -/
def missingBinariesCacheGuard (missingPackagesArg : Option String)
    (localCacheResults : List String) : Bool :=
  !pyTruthyStr missingPackagesArg && decide (localCacheResults.length ≠ 0)

/-- Claim C9: the `conflicts` command's cache-must-be-empty branch is
unreachable (its guard is constant false), while `missing_binaries` raises
exactly when `--missing-packages` is absent (falsy) and the host `list`
command reports a non-empty Local Cache. -/
theorem claim_C9 :
    (∀ localCacheResults : List String,
      conflictsCacheGuard localCacheResults = false) ∧
    (∀ (missingPackagesArg : Option String) (localCacheResults : List String),
      missingBinariesCacheGuard missingPackagesArg localCacheResults = true ↔
        pyTruthyStr missingPackagesArg = false ∧ localCacheResults ≠ []) := by
  refine ⟨fun _ => rfl, fun arg l => ?_⟩
  simp [missingBinariesCacheGuard, List.length_eq_zero]

/-- Modelled from the spec and the commented-out source lines: the
`conflicts` command was meant to derive its reference list from the
`--repo-path` CCI clone via `cci:export-all-versions`, but that call is
commented out in the source; the command uses this hardcoded list no matter
what repository path is passed. -/
def conflictsExportedList (_repoPath : String) : List String :=
  ["bear/3.0.21",
   "daw_json_link/3.24.1",
   "librasterlite/1.1g",
   "logr/0.1.0",
   "logr/0.6.0",
   "mbits-lngs/0.7.6",
   "openassetio/1.0.0-alpha.9",
   "opencascade/7.5.0",
   "opencascade/7.6.0",
   "opencascade/7.6.2",
   "openmvg/2.0",
   "qcustomplot/2.1.0",
   "qcustomplot/2.1.1",
   "samarium/1.0.1",
   "seadex-essentials/2.1.3",
   "seadex-genesis/2.0.0",
   "ulfius/2.7.11"]

/-- Claim C4 (code bug): two CCI clones with different recipe contents are
checked against the identical reference list — the analyzed set is not a
function of the repository contents. -/
theorem claim_C4 :
    conflictsExportedList "/tmp/cci_clone_containing_only_zlib" =
      conflictsExportedList "/tmp/cci_clone_containing_only_boost" := rfl

/-- `m.setdefault(k, []).append(v)` on a Python dict whose values are lists,
modelled as an insertion-ordered association list. -/
def setdefaultAppend {β : Type} (m : List (String × List β)) (k : String) (v : β) :
    List (String × List β) :=
  match m with
  | [] => [(k, [v])]
  | (k', l) :: rest =>
    if k' = k then (k', l ++ [v]) :: rest
    else (k', l) :: setdefaultAppend rest k v

/-- `m[k]` lookup on an association list modelling a Python dict. -/
def lookupA {β : Type} : List (String × β) → String → Option β
  | [], _ => none
  | (k, v) :: rest, k' => if k = k' then some v else lookupA rest k'

/-- The grouping step shared by `generate_conflicts`,
`generate_missing_packages` and `generate_build_order`:
`grouped_references.setdefault(reference.name, []).append(reference)`
over the input list. -/
def groupedReferences (reference_list : List RecipeReference) :
    List (String × List RecipeReference) :=
  reference_list.foldl (fun m r => setdefaultAppend m r.name r) []

theorem lookupA_setdefaultAppend_self {β : Type} (m : List (String × List β))
    (k : String) (v : β) :
    lookupA (setdefaultAppend m k v) k = some ((lookupA m k).getD [] ++ [v]) := by
  induction m with
  | nil => simp [setdefaultAppend, lookupA]
  | cons p rest ih =>
    obtain ⟨k', l⟩ := p
    by_cases h : k' = k
    · subst h
      simp [setdefaultAppend, lookupA]
    · simp [setdefaultAppend, lookupA, h, ih]

theorem lookupA_setdefaultAppend_ne {β : Type} (m : List (String × List β))
    (k k' : String) (v : β) (h : k' ≠ k) :
    lookupA (setdefaultAppend m k v) k' = lookupA m k' := by
  induction m with
  | nil =>
    have hne : ¬k = k' := fun hh => h hh.symm
    simp [setdefaultAppend, lookupA, hne]
  | cons p rest ih =>
    obtain ⟨k₀, l⟩ := p
    by_cases h0 : k₀ = k
    · subst h0
      have hne : ¬k₀ = k' := fun hh => h hh.symm
      simp [setdefaultAppend, lookupA, hne]
    · simp [setdefaultAppend, lookupA, h0, ih]

theorem keys_setdefaultAppend {β : Type} (m : List (String × List β))
    (k : String) (v : β) (k' : String) :
    k' ∈ (setdefaultAppend m k v).map Prod.fst ↔
      k' ∈ m.map Prod.fst ∨ k' = k := by
  induction m with
  | nil => simp [setdefaultAppend]
  | cons p rest ih =>
    obtain ⟨k₀, l⟩ := p
    by_cases h0 : k₀ = k
    · subst h0
      simp [setdefaultAppend]
      tauto
    · simp [setdefaultAppend, h0, ih]
      tauto

theorem nodupKeys_setdefaultAppend {β : Type} (m : List (String × List β))
    (k : String) (v : β) (h : (m.map Prod.fst).Nodup) :
    ((setdefaultAppend m k v).map Prod.fst).Nodup := by
  induction m with
  | nil => simp [setdefaultAppend]
  | cons p rest ih =>
    obtain ⟨k₀, l⟩ := p
    simp only [List.map_cons, List.nodup_cons] at h
    by_cases h0 : k₀ = k
    · subst h0
      simpa [setdefaultAppend] using h
    · simp only [setdefaultAppend, h0, if_false, List.map_cons, List.nodup_cons]
      refine ⟨fun hmem => ?_, ih h.2⟩
      rw [keys_setdefaultAppend] at hmem
      rcases hmem with hmem | hmem
      · exact h.1 hmem
      · exact h0 hmem

theorem lookupA_eq_none_iff {β : Type} (m : List (String × β)) (k : String) :
    lookupA m k = none ↔ k ∉ m.map Prod.fst := by
  induction m with
  | nil => simp [lookupA]
  | cons p rest ih =>
    obtain ⟨k₀, v₀⟩ := p
    by_cases h0 : k₀ = k
    · subst h0
      simp [lookupA]
    · simp [lookupA, h0, ih, Ne.symm h0]

theorem lookupA_mem {β : Type} (m : List (String × β)) (k : String) (v : β)
    (h : lookupA m k = some v) : (k, v) ∈ m := by
  induction m with
  | nil => simp [lookupA] at h
  | cons p rest ih =>
    obtain ⟨k₀, v₀⟩ := p
    by_cases h0 : k₀ = k
    · subst h0
      simp only [lookupA, if_true, Option.some.injEq] at h
      subst h
      exact List.mem_cons_self _ _
    · simp only [lookupA, h0, if_false] at h
      exact List.mem_cons_of_mem _ (ih h)

theorem mem_setdefaultAppend_cases {β : Type} (m : List (String × List β))
    (k : String) (v : β) (hnd : (m.map Prod.fst).Nodup) (q : String × List β)
    (hq : q ∈ setdefaultAppend m k v) :
    (q ∈ m ∧ q.1 ≠ k) ∨ (q.1 = k ∧ q.2 = (lookupA m k).getD [] ++ [v]) := by
  induction m with
  | nil =>
    simp only [setdefaultAppend, List.mem_singleton] at hq
    subst hq
    exact Or.inr ⟨rfl, by simp [lookupA]⟩
  | cons p rest ih =>
    obtain ⟨k₀, l⟩ := p
    simp only [List.map_cons, List.nodup_cons] at hnd
    by_cases h0 : k₀ = k
    · subst h0
      simp only [setdefaultAppend, if_true] at hq
      rcases List.mem_cons.1 hq with hq | hq
      · subst hq
        exact Or.inr ⟨rfl, by simp [lookupA]⟩
      · refine Or.inl ⟨List.mem_cons_of_mem _ hq, fun hk => hnd.1 ?_⟩
        rw [← hk]
        exact List.mem_map_of_mem Prod.fst hq
    · simp only [setdefaultAppend, h0, if_false] at hq
      rcases List.mem_cons.1 hq with hq | hq
      · subst hq
        exact Or.inl ⟨List.mem_cons_self _ _, h0⟩
      · rcases ih hnd.2 hq with h | h
        · exact Or.inl ⟨List.mem_cons_of_mem _ h.1, h.2⟩
        · refine Or.inr ⟨h.1, ?_⟩
          rw [h.2]
          simp [lookupA, h0]

/-- The invariant carried by the grouping fold: after processing the
references `seen`, the accumulated dict has duplicate-free keys, its key set
is the set of names seen, and each group holds exactly the seen references
bearing its key, in input order. -/
structure GroupInv (m : List (String × List RecipeReference))
    (seen : List RecipeReference) : Prop where
  nodup : (m.map Prod.fst).Nodup
  keys : ∀ k', k' ∈ m.map Prod.fst ↔ k' ∈ seen.map RecipeReference.name
  values : ∀ q ∈ m, q.2 = seen.filter (fun r => decide (r.name = q.1))

theorem groupInv_step (m : List (String × List RecipeReference))
    (seen : List RecipeReference) (r : RecipeReference) (h : GroupInv m seen) :
    GroupInv (setdefaultAppend m r.name r) (seen ++ [r]) := by
  constructor
  · exact nodupKeys_setdefaultAppend m r.name r h.nodup
  · intro k'
    rw [keys_setdefaultAppend, h.keys]
    simp
  · intro q hq
    rcases mem_setdefaultAppend_cases m r.name r h.nodup q hq with hc | hc
    · rw [h.values q hc.1, List.filter_append]
      have : decide (r.name = q.1) = false := by
        simpa using fun hh => hc.2 hh.symm
      simp [this]
    · rw [hc.2, List.filter_append]
      congr 1
      · rcases hlook : lookupA m r.name with _ | l
        · have : r.name ∉ seen.map RecipeReference.name := by
            rw [← h.keys]
            exact (lookupA_eq_none_iff m r.name).1 hlook
          have : seen.filter (fun b => decide (b.name = q.1)) = [] := by
            rw [List.filter_eq_nil]
            intro b hb hpb
            simp only [decide_eq_true_eq] at hpb
            exact this (by
              rw [← hc.1, ← hpb]
              exact List.mem_map_of_mem RecipeReference.name hb)
          simp [this]
        · have hmem := lookupA_mem m r.name l hlook
          have := h.values (r.name, l) hmem
          simp only at this
          rw [hc.1, ← this]
          simp
      · simp [hc.1]

theorem groupInv_foldl (refs : List RecipeReference) :
    ∀ (m : List (String × List RecipeReference)) (seen : List RecipeReference),
      GroupInv m seen →
      GroupInv (refs.foldl (fun m r => setdefaultAppend m r.name r) m)
        (seen ++ refs) := by
  induction refs with
  | nil => intro m seen h; simpa using h
  | cons r rest ih =>
    intro m seen h
    have := ih (setdefaultAppend m r.name r) (seen ++ [r]) (groupInv_step m seen r h)
    simpa using this

theorem groupedReferences_inv (refs : List RecipeReference) :
    GroupInv (groupedReferences refs) refs := by
  have := groupInv_foldl refs [] [] ⟨List.nodup_nil, by simp, by simp⟩
  simpa [groupedReferences] using this

theorem flatten_setdefaultAppend {β : Type} (m : List (String × List β))
    (k : String) (v : β) :
    (((setdefaultAppend m k v).map Prod.snd).flatten).Perm
      (v :: (m.map Prod.snd).flatten) := by
  induction m with
  | nil => simp [setdefaultAppend]
  | cons p rest ih =>
    obtain ⟨k₀, l⟩ := p
    by_cases h0 : k₀ = k
    · subst h0
      simp only [setdefaultAppend, if_true, List.map_cons, List.flatten_cons]
      rw [List.append_assoc]
      exact List.perm_middle
    · simp only [setdefaultAppend, h0, if_false, List.map_cons, List.flatten_cons]
      exact (ih.append_left l).trans List.perm_middle

theorem grouped_foldl_flatten_perm (refs : List RecipeReference) :
    ∀ m : List (String × List RecipeReference),
      ((((refs.foldl (fun m r => setdefaultAppend m r.name r) m)).map
          Prod.snd).flatten).Perm ((m.map Prod.snd).flatten ++ refs) := by
  induction refs with
  | nil => intro m; simp
  | cons r rest ih =>
    intro m
    simp only [List.foldl_cons]
    have h1 := ih (setdefaultAppend m r.name r)
    have h2 := (flatten_setdefaultAppend m r.name r).append_right rest
    exact (h1.trans h2).trans List.perm_middle.symm

theorem groupedReferences_flatten_perm (refs : List RecipeReference) :
    ((((groupedReferences refs)).map Prod.snd).flatten).Perm refs := by
  simpa [groupedReferences] using grouped_foldl_flatten_perm refs []

/-- Claim C6: the grouping step partitions the input reference list by
package name: every group's members bear the group's key, keys are
duplicate-free, each group is exactly the input references of that name in
their input order, the concatenation of all groups is a permutation of the
input, and every input reference belongs to some group. -/
theorem claim_C6 (refs : List RecipeReference) :
    (∀ q ∈ groupedReferences refs, ∀ r ∈ q.2, r.name = q.1) ∧
    ((groupedReferences refs).map Prod.fst).Nodup ∧
    (∀ q ∈ groupedReferences refs,
      q.2 = refs.filter (fun r => decide (r.name = q.1))) ∧
    ((((groupedReferences refs)).map Prod.snd).flatten).Perm refs ∧
    (∀ r ∈ refs, ∃ q ∈ groupedReferences refs, r ∈ q.2) := by
  have hinv := groupedReferences_inv refs
  refine ⟨?_, hinv.nodup, hinv.values, groupedReferences_flatten_perm refs, ?_⟩
  · intro q hq r hr
    rw [hinv.values q hq] at hr
    simpa using (List.mem_filter.1 hr).2
  · intro r hr
    have : r ∈ (((groupedReferences refs)).map Prod.snd).flatten :=
      ((groupedReferences_flatten_perm refs).mem_iff).2 hr
    rcases List.mem_flatten.1 this with ⟨l, hl, hrl⟩
    rcases List.mem_map.1 hl with ⟨q, hq, hql⟩
    exact ⟨q, hq, hql ▸ hrl⟩

/-- A sample reference used to witness the grouping claim. -/
def rW : RecipeReference := ⟨"zlib", "1.3"⟩

/-- Witness for claim C6 at a concrete reference list. -/
theorem claim_C6_witness :
    ((groupedReferences [rW]).map Prod.fst).Nodup ∧
    ∃ q ∈ groupedReferences [rW], rW ∈ q.2 := by
  obtain ⟨-, hnd, -, -, hmem⟩ := claim_C6 [rW]
  exact ⟨hnd, hmem rW (List.mem_singleton_self rW)⟩

/-- Outcome of one `load_graph_requires` + `report_graph_error` +
`analyze_binaries` engine round for a (reference, profile, cppstd)
configuration in `generate_missing_packages`: an exception anywhere in the
`try` block, or the binary state of the root dependency node
`deps_graph.nodes[1]`. -/
inductive BinOutcome where
  | err
  | invalid
  | missing
  | valid
deriving DecidableEq, Repr

/-- Result of the inner cppstd loop of `generate_missing_packages` for one
expanded profile: the loop skips exception (`err`) and `Invalid` outcomes,
stops recording `Missing` at a cppstd, stops silently at a `valid`
calculation, or exhausts the list. -/
inductive CppstdScan where
  | missingAt (c : String)
  | validAt (c : String)
  | exhausted
deriving DecidableEq, Repr

/-- The inner cppstd loop of `generate_missing_packages` for one profile. -/
def scanCppstds (g : String → BinOutcome) : List String → CppstdScan
  | [] => .exhausted
  | c :: rest =>
    match g c with
    | .err => scanCppstds g rest
    | .invalid => scanCppstds g rest
    | .missing => .missingAt c
    | .valid => .validAt c

/-- The cppstd values actually evaluated by the inner loop before it stops
(the loop `break`s after a `Missing` or a valid calculation). -/
def checkedCppstds (g : String → BinOutcome) : List String → List String
  | [] => []
  | c :: rest =>
    match g c with
    | .err => c :: checkedCppstds g rest
    | .invalid => c :: checkedCppstds g rest
    | .missing => [c]
    | .valid => [c]

/-- The profile loop of `generate_missing_packages` for one reference: the
first profile whose cppstd scan finds a `Missing` root binary yields the
recorded configuration; `continue_reference = False` then `break`s the
profile loop. -/
def scanProfiles (g : ProfileInfo → String → BinOutcome) :
    List ProfileInfo → Option (ProfileInfo × String)
  | [] => none
  | p :: rest =>
    match scanCppstds (g p) p.cppstd with
    | .missingAt c => some (p, c)
    | .validAt _ => scanProfiles g rest
    | .exhausted => scanProfiles g rest

/-- The (profile, cppstd) configurations actually evaluated for one
reference before `generate_missing_packages` stops checking it. -/
def checkedConfigs (g : ProfileInfo → String → BinOutcome) :
    List ProfileInfo → List (ProfileInfo × String)
  | [] => []
  | p :: rest =>
    match scanCppstds (g p) p.cppstd with
    | .missingAt _ => (checkedCppstds (g p) p.cppstd).map (fun c => (p, c))
    | .validAt _ =>
      (checkedCppstds (g p) p.cppstd).map (fun c => (p, c)) ++ checkedConfigs g rest
    | .exhausted =>
      (checkedCppstds (g p) p.cppstd).map (fun c => (p, c)) ++ checkedConfigs g rest

/-- The expanded profiles used for one reference: `expand_profiles` applied
to the recipe's inspected (`shared`, `header_only`) option pair. -/
def expandedFor (opts : RecipeReference → Bool × Bool) (pm : List ProfileInfo)
    (r : RecipeReference) : List ProfileInfo :=
  expand_profiles (opts r).1 (opts r).2 pm

/-- `generate_missing_packages`: group references by name, and for each
reference scan its expanded profiles; when a `Missing` root binary is found,
record `[host_profile, build_profile, cppstd]` under `str(reference)` and
stop checking that reference. -/
def generate_missing_packages (f : RecipeReference → ProfileInfo → String → BinOutcome)
    (opts : RecipeReference → Bool × Bool) (reference_list : List RecipeReference)
    (pm : List ProfileInfo) : List (String × List (List String)) :=
  (groupedReferences reference_list).foldl
    (fun acc g =>
      g.2.foldl
        (fun acc r =>
          match scanProfiles (f r) (expandedFor opts pm r) with
          | some (p, c) =>
            setdefaultAppend acc r.str [p.host_profile, p.build_profile, c]
          | none => acc)
        acc)
    []

theorem scanCppstds_missing_iff (g : String → BinOutcome) (cs : List String) :
    (∃ c, scanCppstds g cs = .missingAt c) ↔
      ∃ c ∈ checkedCppstds g cs, g c = .missing := by
  induction cs with
  | nil => simp [scanCppstds, checkedCppstds]
  | cons c rest ih =>
    cases hgc : g c with
    | err => simp [scanCppstds, checkedCppstds, hgc, ih]
    | invalid => simp [scanCppstds, checkedCppstds, hgc, ih]
    | missing => simp [scanCppstds, checkedCppstds, hgc]
    | valid => simp [scanCppstds, checkedCppstds, hgc]

theorem scanProfiles_isSome_iff (g : ProfileInfo → String → BinOutcome)
    (ps : List ProfileInfo) :
    (scanProfiles g ps).isSome ↔
      ∃ pc ∈ checkedConfigs g ps, g pc.1 pc.2 = .missing := by
  induction ps with
  | nil => simp [scanProfiles, checkedConfigs]
  | cons p rest ih =>
    cases hs : scanCppstds (g p) p.cppstd with
    | missingAt c =>
      have hex : ∃ c' ∈ checkedCppstds (g p) p.cppstd, g p c' = .missing :=
        (scanCppstds_missing_iff (g p) p.cppstd).1 ⟨c, hs⟩
      rcases hex with ⟨c', hc', hmiss⟩
      simp only [scanProfiles, checkedConfigs, hs, Option.isSome_some, true_iff]
      exact ⟨(p, c'), List.mem_map_of_mem _ hc', hmiss⟩
    | validAt c =>
      have hnot : ¬∃ c', scanCppstds (g p) p.cppstd = .missingAt c' := by
        rw [hs]; rintro ⟨c', h⟩; cases h
      rw [scanCppstds_missing_iff] at hnot
      push_neg at hnot
      simp only [scanProfiles, checkedConfigs, hs, ih]
      constructor
      · rintro ⟨pc, hpc, hmiss⟩
        exact ⟨pc, List.mem_append_right _ hpc, hmiss⟩
      · rintro ⟨pc, hpc, hmiss⟩
        rcases List.mem_append.1 hpc with hpc | hpc
        · rcases List.mem_map.1 hpc with ⟨c', hc', rfl⟩
          exact absurd hmiss (hnot c' hc')
        · exact ⟨pc, hpc, hmiss⟩
    | exhausted =>
      have hnot : ¬∃ c', scanCppstds (g p) p.cppstd = .missingAt c' := by
        rw [hs]; rintro ⟨c', h⟩; cases h
      rw [scanCppstds_missing_iff] at hnot
      push_neg at hnot
      simp only [scanProfiles, checkedConfigs, hs, ih]
      constructor
      · rintro ⟨pc, hpc, hmiss⟩
        exact ⟨pc, List.mem_append_right _ hpc, hmiss⟩
      · rintro ⟨pc, hpc, hmiss⟩
        rcases List.mem_append.1 hpc with hpc | hpc
        · rcases List.mem_map.1 hpc with ⟨c', hc', rfl⟩
          exact absurd hmiss (hnot c' hc')
        · exact ⟨pc, hpc, hmiss⟩

theorem checkedConfigs_fst_mem (g : ProfileInfo → String → BinOutcome)
    (ps : List ProfileInfo) (pc : ProfileInfo × String)
    (h : pc ∈ checkedConfigs g ps) : pc.1 ∈ ps := by
  induction ps with
  | nil => simp [checkedConfigs] at h
  | cons p rest ih =>
    cases hs : scanCppstds (g p) p.cppstd with
    | missingAt c =>
      rw [checkedConfigs, hs] at h
      rcases List.mem_map.1 h with ⟨c', _, rfl⟩
      exact List.mem_cons_self _ _
    | validAt c =>
      rw [checkedConfigs, hs] at h
      rcases List.mem_append.1 h with h | h
      · rcases List.mem_map.1 h with ⟨c', _, rfl⟩
        exact List.mem_cons_self _ _
      · exact List.mem_cons_of_mem _ (ih h)
    | exhausted =>
      rw [checkedConfigs, hs] at h
      rcases List.mem_append.1 h with h | h
      · rcases List.mem_map.1 h with ⟨c', _, rfl⟩
        exact List.mem_cons_self _ _
      · exact List.mem_cons_of_mem _ (ih h)

theorem mp_fold_isSome (f : RecipeReference → ProfileInfo → String → BinOutcome)
    (opts : RecipeReference → Bool × Bool) (pm : List ProfileInfo)
    (rs : List RecipeReference) :
    ∀ (acc : List (String × List (List String))) (k : String),
      (lookupA (rs.foldl
        (fun acc r =>
          match scanProfiles (f r) (expandedFor opts pm r) with
          | some (p, c) =>
            setdefaultAppend acc r.str [p.host_profile, p.build_profile, c]
          | none => acc) acc) k).isSome ↔
      (lookupA acc k).isSome ∨
        ∃ r ∈ rs, (scanProfiles (f r) (expandedFor opts pm r)).isSome ∧
          r.str = k := by
  induction rs with
  | nil => intro acc k; simp
  | cons r rest ih =>
    intro acc k
    simp only [List.foldl_cons]
    cases hscan : scanProfiles (f r) (expandedFor opts pm r) with
    | none =>
      rw [ih]
      simp [hscan]
    | some pc =>
      obtain ⟨p, c⟩ := pc
      rw [ih]
      by_cases hk : k = r.str
      · subst hk
        rw [lookupA_setdefaultAppend_self]
        simp [hscan]
      · rw [lookupA_setdefaultAppend_ne _ _ _ _ hk]
        simp only [List.mem_cons]
        constructor
        · rintro (h | h)
          · exact Or.inl h
          · exact Or.inr ⟨h.choose, Or.inr h.choose_spec.1, h.choose_spec.2⟩
        · rintro (h | ⟨r', hr', hsome, hstr⟩)
          · exact Or.inl h
          · rcases hr' with rfl | hr'
            · exact absurd hstr.symm hk
            · exact Or.inr ⟨r', hr', hsome, hstr⟩

theorem generate_missing_packages_eq_flat_fold
    (f : RecipeReference → ProfileInfo → String → BinOutcome)
    (opts : RecipeReference → Bool × Bool) (refs : List RecipeReference)
    (pm : List ProfileInfo) :
    generate_missing_packages f opts refs pm =
      ((((groupedReferences refs)).map Prod.snd).flatten).foldl
        (fun acc r =>
          match scanProfiles (f r) (expandedFor opts pm r) with
          | some (p, c) =>
            setdefaultAppend acc r.str [p.host_profile, p.build_profile, c]
          | none => acc) [] := by
  rw [generate_missing_packages, List.foldl_flatten, List.foldl_map]

/-- Claim C1: a reference is included in the missing-packages mapping iff,
for some expanded profile of that reference and some cppstd value actually
checked for it, the engine marks the root node `Missing`; in particular a
configuration marked `Invalid` never causes inclusion. -/
theorem claim_C1 (f : RecipeReference → ProfileInfo → String → BinOutcome)
    (opts : RecipeReference → Bool × Bool) (refs : List RecipeReference)
    (pm : List ProfileInfo) (k : String) :
    (lookupA (generate_missing_packages f opts refs pm) k).isSome ↔
      ∃ r ∈ refs, r.str = k ∧
        ∃ p ∈ expandedFor opts pm r, ∃ c,
          (p, c) ∈ checkedConfigs (f r) (expandedFor opts pm r) ∧
          f r p c = BinOutcome.missing := by
  rw [generate_missing_packages_eq_flat_fold, mp_fold_isSome]
  simp only [lookupA, Option.isSome_none, Bool.false_eq_true, false_or]
  constructor
  · rintro ⟨r, hr, hsome, hstr⟩
    have hr' : r ∈ refs := ((groupedReferences_flatten_perm refs).mem_iff).1 hr
    rw [scanProfiles_isSome_iff] at hsome
    rcases hsome with ⟨pc, hpc, hmiss⟩
    exact ⟨r, hr', hstr,
      pc.1, checkedConfigs_fst_mem _ _ _ hpc, pc.2, hpc, hmiss⟩
  · rintro ⟨r, hr, hstr, p, hp, c, hpc, hmiss⟩
    refine ⟨r, ((groupedReferences_flatten_perm refs).mem_iff).2 hr, ?_, hstr⟩
    rw [scanProfiles_isSome_iff]
    exact ⟨(p, c), hpc, hmiss⟩

theorem scanCppstds_missingAt_spec (g : String → BinOutcome) (cs : List String)
    (c : String) (h : scanCppstds g cs = .missingAt c) :
    ∃ pre, checkedCppstds g cs = pre ++ [c] ∧ g c = .missing ∧
      ∀ c' ∈ pre, g c' ≠ .missing := by
  induction cs with
  | nil => simp [scanCppstds] at h
  | cons c₀ rest ih =>
    cases hg : g c₀ with
    | err =>
      simp only [scanCppstds, hg] at h
      rcases ih h with ⟨pre, hck, hmiss, hpre⟩
      refine ⟨c₀ :: pre, by simp [checkedCppstds, hg, hck], hmiss, ?_⟩
      intro c' hc'
      rcases List.mem_cons.1 hc' with rfl | hc'
      · simp [hg]
      · exact hpre c' hc'
    | invalid =>
      simp only [scanCppstds, hg] at h
      rcases ih h with ⟨pre, hck, hmiss, hpre⟩
      refine ⟨c₀ :: pre, by simp [checkedCppstds, hg, hck], hmiss, ?_⟩
      intro c' hc'
      rcases List.mem_cons.1 hc' with rfl | hc'
      · simp [hg]
      · exact hpre c' hc'
    | missing =>
      simp only [scanCppstds, hg, CppstdScan.missingAt.injEq] at h
      subst h
      exact ⟨[], by simp [checkedCppstds, hg], hg, by simp⟩
    | valid =>
      simp only [scanCppstds, hg] at h
      cases h

theorem scanProfiles_some_spec (g : ProfileInfo → String → BinOutcome)
    (ps : List ProfileInfo) (p : ProfileInfo) (c : String)
    (h : scanProfiles g ps = some (p, c)) :
    ∃ pre, checkedConfigs g ps = pre ++ [(p, c)] ∧ g p c = .missing ∧
      ∀ pc ∈ pre, g pc.1 pc.2 ≠ .missing := by
  induction ps with
  | nil => simp [scanProfiles] at h
  | cons p₀ rest ih =>
    cases hs : scanCppstds (g p₀) p₀.cppstd with
    | missingAt c₀ =>
      simp only [scanProfiles, hs, Option.some.injEq, Prod.mk.injEq] at h
      obtain ⟨rfl, rfl⟩ := h
      rcases scanCppstds_missingAt_spec (g p₀) p₀.cppstd c₀ hs with
        ⟨pre0, hck, hmiss, hpre⟩
      refine ⟨pre0.map (fun c' => (p₀, c')), by simp [checkedConfigs, hs, hck],
        hmiss, ?_⟩
      intro pc hpc
      rcases List.mem_map.1 hpc with ⟨c', hc', rfl⟩
      exact hpre c' hc'
    | validAt c₀ =>
      simp only [scanProfiles, hs] at h
      rcases ih h with ⟨pre, hck, hmiss, hpre⟩
      have hnomiss : ∀ c' ∈ checkedCppstds (g p₀) p₀.cppstd, g p₀ c' ≠ .missing := by
        intro c' hc' hcm
        rcases (scanCppstds_missing_iff (g p₀) p₀.cppstd).2 ⟨c', hc', hcm⟩ with ⟨cc, hcc⟩
        rw [hs] at hcc
        cases hcc
      refine ⟨(checkedCppstds (g p₀) p₀.cppstd).map (fun c' => (p₀, c')) ++ pre,
        by simp [checkedConfigs, hs, hck], hmiss, ?_⟩
      intro pc hpc
      rcases List.mem_append.1 hpc with hpc | hpc
      · rcases List.mem_map.1 hpc with ⟨c', hc', rfl⟩
        exact hnomiss c' hc'
      · exact hpre pc hpc
    | exhausted =>
      simp only [scanProfiles, hs] at h
      rcases ih h with ⟨pre, hck, hmiss, hpre⟩
      have hnomiss : ∀ c' ∈ checkedCppstds (g p₀) p₀.cppstd, g p₀ c' ≠ .missing := by
        intro c' hc' hcm
        rcases (scanCppstds_missing_iff (g p₀) p₀.cppstd).2 ⟨c', hc', hcm⟩ with ⟨cc, hcc⟩
        rw [hs] at hcc
        cases hcc
      refine ⟨(checkedCppstds (g p₀) p₀.cppstd).map (fun c' => (p₀, c')) ++ pre,
        by simp [checkedConfigs, hs, hck], hmiss, ?_⟩
      intro pc hpc
      rcases List.mem_append.1 hpc with hpc | hpc
      · rcases List.mem_map.1 hpc with ⟨c', hc', rfl⟩
        exact hnomiss c' hc'
      · exact hpre pc hpc

theorem mp_fold_lookup_spec (f : RecipeReference → ProfileInfo → String → BinOutcome)
    (opts : RecipeReference → Bool × Bool) (pm : List ProfileInfo)
    (rs : List RecipeReference) :
    ∀ (acc : List (String × List (List String))) (k : String) (l : List (List String)),
      (rs.map RecipeReference.str).Nodup →
      (∀ r ∈ rs, lookupA acc r.str = none) →
      lookupA (rs.foldl
        (fun acc r =>
          match scanProfiles (f r) (expandedFor opts pm r) with
          | some (p, c) =>
            setdefaultAppend acc r.str [p.host_profile, p.build_profile, c]
          | none => acc) acc) k = some l →
      lookupA acc k = some l ∨
        ∃ r ∈ rs, r.str = k ∧ ∃ p c,
          scanProfiles (f r) (expandedFor opts pm r) = some (p, c) ∧
          l = [[p.host_profile, p.build_profile, c]] := by
  induction rs with
  | nil => intro acc k l _ _ h; exact Or.inl h
  | cons r rest ih =>
    intro acc k l hnd hfresh h
    simp only [List.map_cons, List.nodup_cons] at hnd
    simp only [List.foldl_cons] at h
    cases hscan : scanProfiles (f r) (expandedFor opts pm r) with
    | none =>
      simp only [hscan] at h
      rcases ih acc k l hnd.2
        (fun r' hr' => hfresh r' (List.mem_cons_of_mem _ hr')) h with h' | h'
      · exact Or.inl h'
      · rcases h' with ⟨r', hr', hrest⟩
        exact Or.inr ⟨r', List.mem_cons_of_mem _ hr', hrest⟩
    | some pc =>
      obtain ⟨p, c⟩ := pc
      simp only [hscan] at h
      have hfresh' : ∀ r' ∈ rest,
          lookupA (setdefaultAppend acc r.str [p.host_profile, p.build_profile, c])
            r'.str = none := by
        intro r' hr'
        have hne : r'.str ≠ r.str := by
          intro he
          exact hnd.1 (he ▸ List.mem_map_of_mem RecipeReference.str hr')
        rw [lookupA_setdefaultAppend_ne _ _ _ _ hne]
        exact hfresh r' (List.mem_cons_of_mem _ hr')
      rcases ih _ k l hnd.2 hfresh' h with h' | h'
      · by_cases hk : k = r.str
        · subst hk
          rw [lookupA_setdefaultAppend_self,
            hfresh r (List.mem_cons_self _ _)] at h'
          simp only [Option.getD_none, List.nil_append, Option.some.injEq] at h'
          exact Or.inr ⟨r, List.mem_cons_self _ _, rfl, p, c, hscan, h'.symm⟩
        · rw [lookupA_setdefaultAppend_ne _ _ _ _ hk] at h'
          exact Or.inl h'
      · rcases h' with ⟨r', hr', hrest⟩
        exact Or.inr ⟨r', List.mem_cons_of_mem _ hr', hrest⟩

/-- Claim C8: under duplicate-free reference strings, every reference in
the missing-binaries result maps to exactly one configuration triple, that
triple is the `Missing` configuration found, and it is the last
configuration checked for the reference — nothing is checked after it. -/
theorem claim_C8 (f : RecipeReference → ProfileInfo → String → BinOutcome)
    (opts : RecipeReference → Bool × Bool) (refs : List RecipeReference)
    (pm : List ProfileInfo) (hnd : (refs.map RecipeReference.str).Nodup)
    (k : String) (l : List (List String))
    (hlook : lookupA (generate_missing_packages f opts refs pm) k = some l) :
    l.length = 1 ∧
    ∃ r ∈ refs, r.str = k ∧ ∃ p c pre,
      l = [[p.host_profile, p.build_profile, c]] ∧
      checkedConfigs (f r) (expandedFor opts pm r) = pre ++ [(p, c)] ∧
      f r p c = BinOutcome.missing ∧
      ∀ pc ∈ pre, f r pc.1 pc.2 ≠ BinOutcome.missing := by
  rw [generate_missing_packages_eq_flat_fold] at hlook
  have hperm := groupedReferences_flatten_perm refs
  have hnd' : (((((groupedReferences refs)).map Prod.snd).flatten).map
      RecipeReference.str).Nodup :=
    ((hperm.map RecipeReference.str).nodup_iff).2 hnd
  rcases mp_fold_lookup_spec f opts pm _ [] k l hnd'
    (fun _ _ => rfl) hlook with h | h
  · simp [lookupA] at h
  · rcases h with ⟨r, hr, hstr, p, c, hscan, hl⟩
    rcases scanProfiles_some_spec (f r) (expandedFor opts pm r) p c hscan with
      ⟨pre, hck, hmiss, hpre⟩
    exact ⟨by simp [hl], r, hperm.mem_iff.1 hr, hstr, p, c, pre, hl, hck, hmiss, hpre⟩

/-- An engine oracle that reports every root binary `Missing`. -/
def fMiss : RecipeReference → ProfileInfo → String → BinOutcome :=
  fun _ _ _ => BinOutcome.missing

/-- A recipe-options oracle: no `shared`, no `header_only` option. -/
def optsNone : RecipeReference → Bool × Bool := fun _ => (false, false)

/-- A sample reference for the missing-binaries witnesses. -/
def rMB : RecipeReference := ⟨"fmt", "10.0"⟩

/-- Witness for claim C8 at a concrete engine, reference and profile map. -/
theorem claim_C8_witness :
    ([rMB].map RecipeReference.str).Nodup ∧
    lookupA (generate_missing_packages fMiss optsNone [rMB] [pW]) "fmt/10.0" =
      some [["gcc11", "gcc11", "17"]] ∧
    ([["gcc11", "gcc11", "17"]] : List (List String)).length = 1 :=
  ⟨by decide, by decide,
   (claim_C8 fMiss optsNone [rMB] [pW] (by decide) "fmt/10.0"
      [["gcc11", "gcc11", "17"]] (by decide)).1⟩

/-- Outcome of one engine round for a (reference, profile, cppstd)
configuration in `generate_conflicts`: an exception while building the graph
or a non-conflict graph error (`cerr`, caught by the outer handler), a
`GraphConflictError` from `report_graph_error` with its stringification, or
a clean graph (`cok`). -/
inductive ConfOutcome where
  | cerr
  | cconflict (msg : String)
  | cok
deriving DecidableEq, Repr

/-- One recorded conflict dict:
`{"configuration": f"{host_profile} - {build_profile} - {cppstd}", "conflict": str(e)}`. -/
structure ConflictEntry where
  configuration : String
  conflict : String
deriving DecidableEq, Repr

/-- The recorded entry for a conflicting configuration. -/
def confEntry (p : ProfileInfo) (c m : String) : ConflictEntry :=
  ⟨p.host_profile ++ " - " ++ p.build_profile ++ " - " ++ c, m⟩

/-- The inner cppstd loop of `generate_conflicts` for one profile: skip
configurations whose graph build raises (`cerr` keeps `continue_group`
true), and stop at the first configuration whose graph build completes —
recording the conflict if `report_graph_error` raised `GraphConflictError`
(`continue_group = False` is reached in both the conflict and clean cases). -/
def scanConf (g : String → ConfOutcome) : List String → Option (String × String)
  | [] => none
  | c :: rest =>
    match g c with
    | .cerr => scanConf g rest
    | .cconflict m => some (c, m)
    | .cok => none

/-- `generate_conflicts`: group references by name, and for each reference
and each expanded profile record under `str(reference)` the conflict found
by the profile's cppstd scan, if any. -/
def generate_conflicts (f : RecipeReference → ProfileInfo → String → ConfOutcome)
    (opts : RecipeReference → Bool × Bool) (reference_list : List RecipeReference)
    (pm : List ProfileInfo) : List (String × List ConflictEntry) :=
  (groupedReferences reference_list).foldl
    (fun acc g =>
      g.2.foldl
        (fun acc r =>
          (expandedFor opts pm r).foldl
            (fun acc p =>
              match scanConf (f r p) p.cppstd with
              | some (c, m) => setdefaultAppend acc r.str (confEntry p c m)
              | none => acc)
            acc)
        acc)
    []

theorem scanConf_some_spec (g : String → ConfOutcome) (cs : List String)
    (c m : String) (h : scanConf g cs = some (c, m)) :
    c ∈ cs ∧ g c = .cconflict m := by
  induction cs with
  | nil => simp [scanConf] at h
  | cons c₀ rest ih =>
    cases hg : g c₀ with
    | cerr =>
      simp only [scanConf, hg] at h
      exact ⟨List.mem_cons_of_mem _ (ih h).1, (ih h).2⟩
    | cconflict m₀ =>
      simp only [scanConf, hg, Option.some.injEq, Prod.mk.injEq] at h
      obtain ⟨rfl, rfl⟩ := h
      exact ⟨List.mem_cons_self _ _, hg⟩
    | cok =>
      simp only [scanConf, hg] at h
      cases h

theorem conf_profile_fold_isSome
    (f : RecipeReference → ProfileInfo → String → ConfOutcome)
    (r : RecipeReference) (ps : List ProfileInfo) :
    ∀ (acc : List (String × List ConflictEntry)) (k : String),
      (lookupA (ps.foldl
        (fun acc p =>
          match scanConf (f r p) p.cppstd with
          | some (c, m) => setdefaultAppend acc r.str (confEntry p c m)
          | none => acc) acc) k).isSome ↔
      (lookupA acc k).isSome ∨
        (r.str = k ∧ ∃ p ∈ ps, (scanConf (f r p) p.cppstd).isSome) := by
  induction ps with
  | nil => intro acc k; simp
  | cons p rest ih =>
    intro acc k
    simp only [List.foldl_cons]
    cases hscan : scanConf (f r p) p.cppstd with
    | none =>
      rw [ih]
      simp [hscan]
    | some cm =>
      obtain ⟨c, m⟩ := cm
      rw [ih]
      by_cases hk : k = r.str
      · subst hk
        rw [lookupA_setdefaultAppend_self]
        simp [hscan]
      · rw [lookupA_setdefaultAppend_ne _ _ _ _ hk]
        have hk' : ¬r.str = k := fun hh => hk hh.symm
        simp only [List.mem_cons, hk', false_and, or_false]

theorem conf_ref_fold_isSome
    (f : RecipeReference → ProfileInfo → String → ConfOutcome)
    (opts : RecipeReference → Bool × Bool) (pm : List ProfileInfo)
    (rs : List RecipeReference) :
    ∀ (acc : List (String × List ConflictEntry)) (k : String),
      (lookupA (rs.foldl
        (fun acc r =>
          (expandedFor opts pm r).foldl
            (fun acc p =>
              match scanConf (f r p) p.cppstd with
              | some (c, m) => setdefaultAppend acc r.str (confEntry p c m)
              | none => acc) acc) acc) k).isSome ↔
      (lookupA acc k).isSome ∨
        ∃ r ∈ rs, r.str = k ∧ ∃ p ∈ expandedFor opts pm r,
          (scanConf (f r p) p.cppstd).isSome := by
  induction rs with
  | nil => intro acc k; simp
  | cons r rest ih =>
    intro acc k
    simp only [List.foldl_cons]
    rw [ih, conf_profile_fold_isSome]
    simp only [List.mem_cons]
    constructor
    · rintro ((h | h) | h)
      · exact Or.inl h
      · exact Or.inr ⟨r, Or.inl rfl, h.1, h.2⟩
      · rcases h with ⟨r', hr', hrest⟩
        exact Or.inr ⟨r', Or.inr hr', hrest⟩
    · rintro (h | ⟨r', hr', hstr, hp⟩)
      · exact Or.inl (Or.inl h)
      · rcases hr' with rfl | hr'
        · exact Or.inl (Or.inr ⟨hstr, hp⟩)
        · exact Or.inr ⟨r', hr', hstr, hp⟩

theorem generate_conflicts_eq_flat_fold
    (f : RecipeReference → ProfileInfo → String → ConfOutcome)
    (opts : RecipeReference → Bool × Bool) (refs : List RecipeReference)
    (pm : List ProfileInfo) :
    generate_conflicts f opts refs pm =
      ((((groupedReferences refs)).map Prod.snd).flatten).foldl
        (fun acc r =>
          (expandedFor opts pm r).foldl
            (fun acc p =>
              match scanConf (f r p) p.cppstd with
              | some (c, m) => setdefaultAppend acc r.str (confEntry p c m)
              | none => acc) acc) [] := by
  rw [generate_conflicts, List.foldl_flatten, List.foldl_map]

theorem mem_lookupA_setdefaultAppend {β : Type} (m : List (String × List β))
    (k k' : String) (v : β) (l : List β)
    (h : lookupA (setdefaultAppend m k v) k' = some l) (e : β) (he : e ∈ l) :
    (∃ l₀, lookupA m k' = some l₀ ∧ e ∈ l₀) ∨ (k' = k ∧ e = v) := by
  by_cases hk : k' = k
  · subst hk
    rw [lookupA_setdefaultAppend_self] at h
    injection h with h
    subst h
    rcases List.mem_append.1 he with he | he
    · rcases hl : lookupA m k' with _ | l₀
      · rw [hl] at he
        simp at he
      · rw [hl] at he
        exact Or.inl ⟨l₀, rfl, he⟩
    · exact Or.inr ⟨rfl, List.mem_singleton.1 he⟩
  · rw [lookupA_setdefaultAppend_ne _ _ _ _ hk] at h
    exact Or.inl ⟨l, h, he⟩

/-- Provenance of one recorded conflict entry: it comes from a reference of
the input list and an expanded profile of that reference whose cppstd scan
found a conflict. -/
def ConflictProvenance (f : RecipeReference → ProfileInfo → String → ConfOutcome)
    (opts : RecipeReference → Bool × Bool) (pm : List ProfileInfo)
    (refs : List RecipeReference) (k : String) (e : ConflictEntry) : Prop :=
  ∃ r ∈ refs, r.str = k ∧ ∃ p ∈ expandedFor opts pm r, ∃ c m,
    scanConf (f r p) p.cppstd = some (c, m) ∧
    f r p c = ConfOutcome.cconflict m ∧ e = confEntry p c m

theorem conf_profile_fold_content
    (f : RecipeReference → ProfileInfo → String → ConfOutcome)
    (opts : RecipeReference → Bool × Bool) (pm : List ProfileInfo)
    (refs : List RecipeReference) (r : RecipeReference) (hr : r ∈ refs)
    (ps : List ProfileInfo) :
    ∀ (acc : List (String × List ConflictEntry)),
      (∀ p ∈ ps, p ∈ expandedFor opts pm r) →
      (∀ k l, lookupA acc k = some l →
        ∀ e ∈ l, ConflictProvenance f opts pm refs k e) →
      ∀ k l, lookupA (ps.foldl
        (fun acc p =>
          match scanConf (f r p) p.cppstd with
          | some (c, m) => setdefaultAppend acc r.str (confEntry p c m)
          | none => acc) acc) k = some l →
      ∀ e ∈ l, ConflictProvenance f opts pm refs k e := by
  induction ps with
  | nil => intro acc _ hinv k l h e he; exact hinv k l h e he
  | cons p rest ih =>
    intro acc hps hinv k l h e he
    simp only [List.foldl_cons] at h
    cases hscan : scanConf (f r p) p.cppstd with
    | none =>
      rw [hscan] at h
      exact ih acc (fun p' hp' => hps p' (List.mem_cons_of_mem _ hp')) hinv k l h e he
    | some cm =>
      obtain ⟨c, m⟩ := cm
      rw [hscan] at h
      refine ih _ (fun p' hp' => hps p' (List.mem_cons_of_mem _ hp')) ?_ k l h e he
      intro k' l' hl' e' he'
      rcases mem_lookupA_setdefaultAppend acc r.str k' (confEntry p c m) l' hl' e' he' with
        hc | hc
      · rcases hc with ⟨l₀, hl₀, he₀⟩
        exact hinv k' l₀ hl₀ e' he₀
      · rcases hc with ⟨rfl, rfl⟩
        exact ⟨r, hr, rfl, p, hps p (List.mem_cons_self _ _), c, m, hscan,
          (scanConf_some_spec (f r p) p.cppstd c m hscan).2, rfl⟩

theorem conf_ref_fold_content
    (f : RecipeReference → ProfileInfo → String → ConfOutcome)
    (opts : RecipeReference → Bool × Bool) (pm : List ProfileInfo)
    (refs : List RecipeReference) (rs : List RecipeReference) :
    ∀ (acc : List (String × List ConflictEntry)),
      (∀ r ∈ rs, r ∈ refs) →
      (∀ k l, lookupA acc k = some l →
        ∀ e ∈ l, ConflictProvenance f opts pm refs k e) →
      ∀ k l, lookupA (rs.foldl
        (fun acc r =>
          (expandedFor opts pm r).foldl
            (fun acc p =>
              match scanConf (f r p) p.cppstd with
              | some (c, m) => setdefaultAppend acc r.str (confEntry p c m)
              | none => acc) acc) acc) k = some l →
      ∀ e ∈ l, ConflictProvenance f opts pm refs k e := by
  induction rs with
  | nil => intro acc _ hinv k l h e he; exact hinv k l h e he
  | cons r rest ih =>
    intro acc hrs hinv k l h e he
    simp only [List.foldl_cons] at h
    refine ih _ (fun r' hr' => hrs r' (List.mem_cons_of_mem _ hr')) ?_ k l h e he
    exact conf_profile_fold_content f opts pm refs r (hrs r (List.mem_cons_self _ _))
      (expandedFor opts pm r) acc (fun _ hp => hp) hinv

/-- Claim C2 (amended): a reference is a key of the conflicts mapping iff,
for some expanded profile of that reference, the first cppstd of that
profile whose graph build completes raises a conflict (the per-profile scan
finds one); and every recorded entry carries the configuration description
`host_profile - build_profile - cppstd` and the stringified conflict error
of such a configuration. -/
theorem claim_C2 (f : RecipeReference → ProfileInfo → String → ConfOutcome)
    (opts : RecipeReference → Bool × Bool) (refs : List RecipeReference)
    (pm : List ProfileInfo) :
    (∀ k, (lookupA (generate_conflicts f opts refs pm) k).isSome ↔
      ∃ r ∈ refs, r.str = k ∧ ∃ p ∈ expandedFor opts pm r,
        (scanConf (f r p) p.cppstd).isSome) ∧
    (∀ k l, lookupA (generate_conflicts f opts refs pm) k = some l →
      ∀ e ∈ l, ConflictProvenance f opts pm refs k e) := by
  have hperm := groupedReferences_flatten_perm refs
  constructor
  · intro k
    rw [generate_conflicts_eq_flat_fold, conf_ref_fold_isSome]
    simp only [lookupA, Option.isSome_none, Bool.false_eq_true, false_or]
    constructor
    · rintro ⟨r, hr, hrest⟩
      exact ⟨r, hperm.mem_iff.1 hr, hrest⟩
    · rintro ⟨r, hr, hrest⟩
      exact ⟨r, hperm.mem_iff.2 hr, hrest⟩
  · intro k l h e he
    rw [generate_conflicts_eq_flat_fold] at h
    exact conf_ref_fold_content f opts pm refs _ []
      (fun r hr => hperm.mem_iff.1 hr) (by intro k' l' h'; cases h') k l h e he

/-- A sample reference for the conflicts claims. -/
def rCex : RecipeReference := ⟨"libx", "1.0"⟩

/-- An engine oracle whose graph build succeeds cleanly at cppstd 17 but
would raise a conflict at cppstd 20. -/
def fCex : RecipeReference → ProfileInfo → String → ConfOutcome :=
  fun _ _ c => if c = "20" then ConfOutcome.cconflict "conflict msg" else ConfOutcome.cok

/-- Counterexample to claim C2 as stated: some cppstd value in the expanded
profile's cppstd list (20) raises a conflict, yet the reference is not a key
of the result — the per-profile loop stops at the first cppstd whose build
completes (17, clean), so later cppstd values are never checked. -/
theorem claim_C2_counterexample :
    lookupA (generate_conflicts fCex optsNone [rCex] [pW]) rCex.str = none ∧
    ∃ p ∈ expandedFor optsNone [pW] rCex, ∃ c ∈ p.cppstd, ∃ m,
      fCex rCex p c = ConfOutcome.cconflict m :=
  ⟨by decide,
   confDefaults pW, by decide, "20", by decide, "conflict msg", by decide⟩

/-- An engine oracle that raises a conflict at the first cppstd. -/
def fCW : RecipeReference → ProfileInfo → String → ConfOutcome :=
  fun _ _ c => if c = "17" then ConfOutcome.cconflict "boom" else ConfOutcome.cok

/-- Witness for claim C2 at a concrete engine that does record a conflict. -/
theorem claim_C2_witness :
    (lookupA (generate_conflicts fCW optsNone [rCex] [pW]) "libx/1.0").isSome ∧
    ConflictProvenance fCW optsNone [pW] [rCex] "libx/1.0"
      (confEntry (confDefaults pW) "17" "boom") :=
  ⟨by decide,
   (claim_C2 fCW optsNone [rCex] [pW]).2 "libx/1.0"
     [confEntry (confDefaults pW) "17" "boom"] (by decide)
     (confEntry (confDefaults pW) "17" "boom") (List.mem_singleton_self _)⟩

/-- Outcome of one engine round for a (reference, profile, cppstd)
configuration in `generate_build_order`: an exception in the `try` block, an
`Invalid` root binary, or a successful analysis producing the host
`InstallGraph(deps_graph, order_by="recipe")`. -/
inductive BuildOutcome (IG : Type) where
  | berr
  | binvalid
  | bsuccess (g : IG)

/-- The inner cppstd loop of `generate_build_order` for one profile:
exceptions and `Invalid` skip to the next cppstd, and the first successful
analysis yields its install graph and `break`s the loop. -/
def scanBuild {IG : Type} (g : String → BuildOutcome IG) : List String → Option IG
  | [] => none
  | c :: rest =>
    match g c with
    | .berr => scanBuild g rest
    | .binvalid => scanBuild g rest
    | .bsuccess ig => some ig

/-- `RecipeReference(*ref.split("/"))` on a dict key. -/
def parseRef (s : String) : RecipeReference :=
  match s.splitOn "/" with
  | n :: v :: _ => ⟨n, v⟩
  | _ => ⟨s, ""⟩

/-- `generate_build_order`: derive the reference list from the
missing-packages keys, group by name, and for each reference/profile take
the first successfully analyzed configuration's install graph, merging it
into the accumulated graph (`merged_install_graph.merge(new_install_graph)`,
the first graph seeding the accumulator); finally `reduce()` once and return
`install_build_order()`.  When no configuration succeeds the Python code
crashes calling `reduce()` on `None`; this is modelled as `none`. -/
def generate_build_order {IG BO : Type} (mrg : IG → IG → IG) (red : IG → IG)
    (ibo : IG → BO) (f : RecipeReference → ProfileInfo → String → BuildOutcome IG)
    (opts : RecipeReference → Bool × Bool)
    (missing_packages : List (String × List (List String)))
    (pm : List ProfileInfo) : Option BO :=
  let reference_list := missing_packages.map (fun kv => parseRef kv.1)
  let merged := (groupedReferences reference_list).foldl
    (fun acc g =>
      g.2.foldl
        (fun acc r =>
          (expandedFor opts pm r).foldl
            (fun acc p =>
              match scanBuild (f r p) p.cppstd with
              | some ig =>
                match acc with
                | none => some ig
                | some m => some (mrg m ig)
              | none => acc)
            acc)
        acc)
    none
  merged.map (fun m => ibo (red m))

/-- The host install graphs produced in iteration order: for each grouped
reference and each expanded profile, the graph of the first successfully
analyzed configuration, if any. -/
def collectedInstallGraphs {IG : Type}
    (f : RecipeReference → ProfileInfo → String → BuildOutcome IG)
    (opts : RecipeReference → Bool × Bool) (refsList : List RecipeReference)
    (pm : List ProfileInfo) : List IG :=
  (((((groupedReferences refsList)).map Prod.snd).flatten).map
    (fun r => (expandedFor opts pm r).filterMap
      (fun p => scanBuild (f r p) p.cppstd))).flatten

theorem build_profile_fold_eq {IG : Type} (mrg : IG → IG → IG)
    (f : RecipeReference → ProfileInfo → String → BuildOutcome IG)
    (r : RecipeReference) (ps : List ProfileInfo) :
    ∀ acc : Option IG,
      ps.foldl
        (fun acc p =>
          match scanBuild (f r p) p.cppstd with
          | some ig =>
            match acc with
            | none => some ig
            | some m => some (mrg m ig)
          | none => acc) acc =
      (ps.filterMap (fun p => scanBuild (f r p) p.cppstd)).foldl
        (fun acc ig =>
          match acc with
          | none => some ig
          | some m => some (mrg m ig)) acc := by
  induction ps with
  | nil => intro acc; rfl
  | cons p rest ih =>
    intro acc
    cases hscan : scanBuild (f r p) p.cppstd with
    | none => simp [List.filterMap_cons, hscan, ih]
    | some ig => simp [List.filterMap_cons, hscan, ih]

theorem build_ref_fold_eq {IG : Type} (mrg : IG → IG → IG)
    (f : RecipeReference → ProfileInfo → String → BuildOutcome IG)
    (opts : RecipeReference → Bool × Bool) (pm : List ProfileInfo)
    (rs : List RecipeReference) :
    ∀ acc : Option IG,
      rs.foldl
        (fun acc r =>
          (expandedFor opts pm r).foldl
            (fun acc p =>
              match scanBuild (f r p) p.cppstd with
              | some ig =>
                match acc with
                | none => some ig
                | some m => some (mrg m ig)
              | none => acc)
            acc) acc =
      ((rs.map (fun r => (expandedFor opts pm r).filterMap
          (fun p => scanBuild (f r p) p.cppstd))).flatten).foldl
        (fun acc ig =>
          match acc with
          | none => some ig
          | some m => some (mrg m ig)) acc := by
  induction rs with
  | nil => intro acc; rfl
  | cons r rest ih =>
    intro acc
    simp only [List.foldl_cons, List.map_cons, List.flatten_cons, List.foldl_append]
    rw [build_profile_fold_eq, ih]

theorem foldl_mergeOpt_some {IG : Type} (mrg : IG → IG → IG) (L : List IG) :
    ∀ m : IG,
      L.foldl
        (fun acc ig =>
          match acc with
          | none => some ig
          | some m => some (mrg m ig)) (some m) = some (L.foldl mrg m) := by
  induction L with
  | nil => intro m; rfl
  | cons g gs ih => intro m; simp only [List.foldl_cons]; rw [ih]

/-- Claim C3: the build order returned by `generate_build_order` is exactly
the host `install_build_order()` of the single graph obtained by merging, in
iteration order, the host-produced per-configuration install graphs into the
first one and applying the host `reduce()` once at the end; the script never
reorders, adds or removes build steps (and yields nothing when no
configuration was successfully analyzed). -/
theorem claim_C3 {IG BO : Type} (mrg : IG → IG → IG) (red : IG → IG)
    (ibo : IG → BO) (f : RecipeReference → ProfileInfo → String → BuildOutcome IG)
    (opts : RecipeReference → Bool × Bool)
    (missing_packages : List (String × List (List String)))
    (pm : List ProfileInfo) :
    generate_build_order mrg red ibo f opts missing_packages pm =
      match collectedInstallGraphs f opts
          (missing_packages.map (fun kv => parseRef kv.1)) pm with
      | [] => none
      | g :: gs => some (ibo (red (gs.foldl mrg g))) := by
  have hgroups :
      ((((groupedReferences (missing_packages.map (fun kv => parseRef kv.1)))).map
          Prod.snd).flatten).foldl
        (fun acc r =>
          (expandedFor opts pm r).foldl
            (fun acc p =>
              match scanBuild (f r p) p.cppstd with
              | some ig =>
                match acc with
                | none => some ig
                | some m => some (mrg m ig)
              | none => acc)
            acc) none =
      (groupedReferences (missing_packages.map (fun kv => parseRef kv.1))).foldl
        (fun acc g =>
          g.2.foldl
            (fun acc r =>
              (expandedFor opts pm r).foldl
                (fun acc p =>
                  match scanBuild (f r p) p.cppstd with
                  | some ig =>
                    match acc with
                    | none => some ig
                    | some m => some (mrg m ig)
                  | none => acc)
                acc)
            acc) none := by
    rw [List.foldl_flatten, List.foldl_map]
  simp only [generate_build_order]
  rw [← hgroups, build_ref_fold_eq]
  rcases hL : collectedInstallGraphs f opts
      (missing_packages.map (fun kv => parseRef kv.1)) pm with _ | ⟨g, gs⟩
  · rw [hL]
    rw [collectedInstallGraphs] at hL
    rw [hL]
    rfl
  · rw [hL]
    rw [collectedInstallGraphs] at hL
    rw [hL]
    simp only [List.foldl_cons]
    rw [foldl_mergeOpt_some]
    rfl

/-- One observable action of the `promote_conan2` command: a host
`conan list {lib}/*#*:*#* -r conancenter` run, a JSON dump of its results to
a pkglist file, or a host `art:promote` run on a pkglist file path. -/
inductive PromoteEffect (L : Type) where
  | runList (lib : String)
  | writeFile (path : String) (content : L)
  | runPromote (path : String)
deriving DecidableEq, Repr

/-- `os.path.join(tmp, f"{lib}.json")`. -/
def pkglistPath (tmp lib : String) : String := tmp ++ "/" ++ lib ++ ".json"

/-- `promote_conan2` as its trace of effects: for each library of
`sorted(os.listdir(args.path))`, run the host list command, write its
results to `<tmp>/<lib>.json`, then run the host promote command on that
file path.  `listResults lib` abstracts `output["results"]` of the list
run. -/
def promote_conan2 {L : Type} (listResults : String → L) (pathListing : List String)
    (tmp : String) : List (PromoteEffect L) :=
  ((List.insertionSort (· ≤ ·) pathListing).map (fun lib =>
    [PromoteEffect.runList lib,
     PromoteEffect.writeFile (pkglistPath tmp lib) (listResults lib),
     PromoteEffect.runPromote (pkglistPath tmp lib)])).flatten

/-- The libraries processed by a trace, in order. -/
def processedLibs {L : Type} (effs : List (PromoteEffect L)) : List String :=
  effs.filterMap (fun e =>
    match e with
    | PromoteEffect.runList lib => some lib
    | PromoteEffect.writeFile _ _ => none
    | PromoteEffect.runPromote _ => none)

theorem processedLibs_chunks {L : Type} (listResults : String → L) (tmp : String)
    (ls : List String) :
    processedLibs ((ls.map (fun lib =>
      [PromoteEffect.runList lib,
       PromoteEffect.writeFile (pkglistPath tmp lib) (listResults lib),
       PromoteEffect.runPromote (pkglistPath tmp lib)])).flatten) = ls := by
  induction ls with
  | nil => rfl
  | cons lib rest ih =>
    simp only [List.map_cons, List.flatten_cons, processedLibs,
      List.filterMap_append] at *
    rw [ih]
    rfl

theorem promote_write_before {L : Type} (listResults : String → L) (tmp : String)
    (ls : List String) :
    ∀ (i : Nat) (p : String),
      (((ls.map (fun lib =>
        [PromoteEffect.runList lib,
         PromoteEffect.writeFile (pkglistPath tmp lib) (listResults lib),
         PromoteEffect.runPromote (pkglistPath tmp lib)])).flatten).get? i =
          some (PromoteEffect.runPromote p)) →
      ∃ lib ∈ ls, p = pkglistPath tmp lib ∧
        ∃ j, j < i ∧
          (((ls.map (fun lib =>
            [PromoteEffect.runList lib,
             PromoteEffect.writeFile (pkglistPath tmp lib) (listResults lib),
             PromoteEffect.runPromote (pkglistPath tmp lib)])).flatten).get? j =
            some (PromoteEffect.writeFile p (listResults lib))) := by
  induction ls with
  | nil => intro i p h; simp [List.get?] at h
  | cons lib rest ih =>
    intro i p h
    simp only [List.map_cons, List.flatten_cons, List.cons_append,
      List.nil_append, List.singleton_append] at h ⊢
    match i, h with
    | 0, h => simp [List.get?] at h
    | 1, h => simp [List.get?] at h
    | 2, h =>
      simp only [List.get?, Option.some.injEq, PromoteEffect.runPromote.injEq] at h
      refine ⟨lib, List.mem_cons_self _ _, h.symm, 1, by omega, ?_⟩
      simp [List.get?, h]
    | (n + 3), h =>
      have h' : (((rest.map (fun lib =>
          [PromoteEffect.runList lib,
           PromoteEffect.writeFile (pkglistPath tmp lib) (listResults lib),
           PromoteEffect.runPromote (pkglistPath tmp lib)])).flatten).get? n =
          some (PromoteEffect.runPromote p)) := h
      rcases ih n p h' with ⟨lib', hmem, hp, j, hj, hw⟩
      exact ⟨lib', List.mem_cons_of_mem _ hmem, hp, j + 3, by omega, hw⟩

/-- Claim C7: the promote command processes the library names of the
recipes directory listing in sorted order (the processed sequence is sorted
and a permutation of the listing), and every host promote run targets a
pkglist path `<tmp>/<lib>.json` for a library of the listing whose list
results were written to that exact path earlier in the trace. -/
theorem claim_C7 {L : Type} (listResults : String → L) (pathListing : List String)
    (tmp : String) :
    List.Sorted (· ≤ ·) (processedLibs (promote_conan2 listResults pathListing tmp)) ∧
    (processedLibs (promote_conan2 listResults pathListing tmp)).Perm pathListing ∧
    ∀ (i : Nat) (p : String),
      (promote_conan2 listResults pathListing tmp).get? i =
          some (PromoteEffect.runPromote p) →
      ∃ lib ∈ pathListing, p = pkglistPath tmp lib ∧
        ∃ j, j < i ∧
          (promote_conan2 listResults pathListing tmp).get? j =
            some (PromoteEffect.writeFile p (listResults lib)) := by
  refine ⟨?_, ?_, ?_⟩
  · rw [promote_conan2, processedLibs_chunks]
    exact List.sorted_insertionSort _ _
  · rw [promote_conan2, processedLibs_chunks]
    exact List.perm_insertionSort _ _
  · intro i p h
    rw [promote_conan2] at h
    rcases promote_write_before listResults tmp
        (List.insertionSort (· ≤ ·) pathListing) i p h with ⟨lib, hmem, hp, j, hj, hw⟩
    exact ⟨lib, (List.perm_insertionSort (· ≤ ·) pathListing).mem_iff.1 hmem, hp,
      j, hj, hw⟩

/-- Witness for claim C7 at a concrete directory listing. -/
theorem claim_C7_witness :
    List.Sorted (· ≤ ·)
      (processedLibs (promote_conan2 (fun s => s) ["libb", "liba"] "/tmp/promote")) ∧
    ∃ lib ∈ ["libb", "liba"], "/tmp/promote/liba.json" = pkglistPath "/tmp/promote" lib ∧
      ∃ j, j < 2 ∧
        (promote_conan2 (fun s => s) ["libb", "liba"] "/tmp/promote").get? j =
          some (PromoteEffect.writeFile "/tmp/promote/liba.json" lib) := by
  obtain ⟨hs, -, hpre⟩ := claim_C7 (fun s : String => s) ["libb", "liba"] "/tmp/promote"
  refine ⟨hs, hpre 2 "/tmp/promote/liba.json" ?_⟩
  have hsort : List.insertionSort (· ≤ ·) ["libb", "liba"] = ["liba", "libb"] := by
    simp [List.insertionSort, List.orderedInsert]
    decide
  rw [promote_conan2, hsort]
  rfl

/-- A heap of Python profile dicts, addressed by allocation index; used to
model object identity, `copy.deepcopy` and in-place mutation in
`expand_profiles`. -/
abbrev Heap := List ProfileInfo

/-- The default dict used for out-of-range reads (never hit in the modelled
runs). -/
def emptyProfile : ProfileInfo := ⟨"", "", [], none, none, none, none, none, none⟩

/-- Dereference a heap address. -/
def readCell (h : Heap) (a : Nat) : ProfileInfo := h.getD a emptyProfile

/-- Mutate the dict at a heap address in place. -/
def writeCell (h : Heap) (a : Nat) (v : ProfileInfo) : Heap := h.set a v

/-- `copy.deepcopy`: allocate a fresh cell holding a copy of the value. -/
def allocCell (h : Heap) (v : ProfileInfo) : Heap × Nat := (h ++ [v], h.length)

/-- `d.setdefault('host_conf', [])`. -/
def setdefaultHostConf (p : ProfileInfo) : ProfileInfo :=
  { p with host_conf := some (p.host_conf.getD []) }

/-- `d.setdefault('build_conf', [])`. -/
def setdefaultBuildConf (p : ProfileInfo) : ProfileInfo :=
  { p with build_conf := some (p.build_conf.getD []) }

theorem setdefaultBuildConf_setdefaultHostConf (v : ProfileInfo) :
    setdefaultBuildConf (setdefaultHostConf v) = confDefaults v := rfl

/-- The body of the `expand_profiles` loop on the heap model: deep-copy the
base profile dict, apply the two conf `setdefault`s to the copy, then build
and push the shared / header / plain variants, each a deep copy mutated via
`setdefault('host_options', []).append(...)`.  The state is (heap,
`expanded_profiles` as a list of addresses). -/
def expandOneHeap (hasShared hasHeader : Bool) (st : Heap × List Nat) (a : Nat) :
    Heap × List Nat :=
  let h0 := st.1
  let acc := st.2
  let al1 := allocCell h0 (readCell h0 a)
  let h1 := al1.1
  let pi := al1.2
  let h2a := writeCell h1 pi (setdefaultHostConf (readCell h1 pi))
  let h2 := writeCell h2a pi (setdefaultBuildConf (readCell h2a pi))
  let stS :=
    if hasShared then
      let al2 := allocCell h2 (readCell h2 pi)
      let h3 := al2.1
      let sp := al2.2
      let h4 :=
        if hasHeader then
          writeCell h3 sp (appendHostOpt (readCell h3 sp) "&:header_only=False")
        else h3
      let al3 := allocCell h4 (readCell h4 sp)
      let h5 := al3.1
      let ns := al3.2
      let h6 := writeCell h5 ns (appendHostOpt (readCell h5 ns) "*:shared=True")
      let al4 := allocCell h6 (readCell h6 sp)
      let h7 := al4.1
      let nst := al4.2
      let h8 := writeCell h7 nst (appendHostOpt (readCell h7 nst) "*:shared=False")
      (h8, acc ++ [ns, nst])
    else (h2, acc)
  let hS := stS.1
  let accS := stS.2
  let stH :=
    if hasHeader then
      let al5 := allocCell hS (readCell hS pi)
      let h9 := al5.1
      let nh := al5.2
      let h10 := writeCell h9 nh (appendHostOpt (readCell h9 nh) "&:header_only=True")
      (h10, accS ++ [nh])
    else (hS, accS)
  let hH := stH.1
  let accH := stH.2
  if !hasShared && !hasHeader then (hH, accH ++ [pi]) else (hH, accH)

/-- `expand_profiles` on the heap model: fold the loop body over the
addresses of the base profile dicts of `profile_map['profiles']`, starting
from an empty `expanded_profiles` list. -/
def expand_profiles_heap (hasShared hasHeader : Bool) (h : Heap)
    (addrs : List Nat) : Heap × List Nat :=
  addrs.foldl (expandOneHeap hasShared hasHeader) (h, [])

theorem readCell_append_of_lt (h ext : Heap) (i : Nat) (hi : i < h.length) :
    readCell (h ++ ext) i = readCell h i := by
  rw [readCell, readCell, List.getD_eq_getElem?_getD, List.getD_eq_getElem?_getD,
    List.getElem?_append, if_pos hi]

theorem readCell_append_len (h : Heap) (l : List ProfileInfo) :
    readCell (h ++ l) h.length = readCell l 0 := by
  rw [readCell, readCell, List.getD_eq_getElem?_getD, List.getD_eq_getElem?_getD,
    List.getElem?_append_right (le_refl _), Nat.sub_self]

theorem readCell_append_len_add (h : Heap) (l : List ProfileInfo) (j : Nat) :
    readCell (h ++ l) (h.length + j) = readCell l j := by
  rw [readCell, readCell, List.getD_eq_getElem?_getD, List.getD_eq_getElem?_getD,
    List.getElem?_append_right (Nat.le_add_right _ _), Nat.add_sub_cancel_left]

theorem writeCell_append_len (h : Heap) (l : List ProfileInfo) (w : ProfileInfo) :
    writeCell (h ++ l) h.length w = h ++ writeCell l 0 w := by
  simp [writeCell, List.set_append]

theorem writeCell_append_len_add (h : Heap) (l : List ProfileInfo) (j : Nat)
    (w : ProfileInfo) :
    writeCell (h ++ l) (h.length + j) w = h ++ writeCell l j w := by
  simp [writeCell, List.set_append]

theorem readCell_c0 (x₀ : ProfileInfo) (l : List ProfileInfo) :
    readCell (x₀ :: l) 0 = x₀ := rfl

theorem readCell_c1 (x₀ x₁ : ProfileInfo) (l : List ProfileInfo) :
    readCell (x₀ :: x₁ :: l) 1 = x₁ := rfl

theorem readCell_c2 (x₀ x₁ x₂ : ProfileInfo) (l : List ProfileInfo) :
    readCell (x₀ :: x₁ :: x₂ :: l) 2 = x₂ := rfl

theorem readCell_c3 (x₀ x₁ x₂ x₃ : ProfileInfo) (l : List ProfileInfo) :
    readCell (x₀ :: x₁ :: x₂ :: x₃ :: l) 3 = x₃ := rfl

theorem readCell_c4 (x₀ x₁ x₂ x₃ x₄ : ProfileInfo) (l : List ProfileInfo) :
    readCell (x₀ :: x₁ :: x₂ :: x₃ :: x₄ :: l) 4 = x₄ := rfl

theorem writeCell_c0 (x₀ : ProfileInfo) (l : List ProfileInfo) (w : ProfileInfo) :
    writeCell (x₀ :: l) 0 w = w :: l := rfl

theorem writeCell_c1 (x₀ x₁ : ProfileInfo) (l : List ProfileInfo) (w : ProfileInfo) :
    writeCell (x₀ :: x₁ :: l) 1 w = x₀ :: w :: l := rfl

theorem writeCell_c2 (x₀ x₁ x₂ : ProfileInfo) (l : List ProfileInfo) (w : ProfileInfo) :
    writeCell (x₀ :: x₁ :: x₂ :: l) 2 w = x₀ :: x₁ :: w :: l := rfl

theorem writeCell_c3 (x₀ x₁ x₂ x₃ : ProfileInfo) (l : List ProfileInfo)
    (w : ProfileInfo) :
    writeCell (x₀ :: x₁ :: x₂ :: x₃ :: l) 3 w = x₀ :: x₁ :: x₂ :: w :: l := rfl

theorem writeCell_c4 (x₀ x₁ x₂ x₃ x₄ : ProfileInfo) (l : List ProfileInfo)
    (w : ProfileInfo) :
    writeCell (x₀ :: x₁ :: x₂ :: x₃ :: x₄ :: l) 4 w =
      x₀ :: x₁ :: x₂ :: x₃ :: w :: l := rfl

theorem expandOneHeap_tt (h : Heap) (acc : List Nat) (a : Nat) :
    expandOneHeap true true (h, acc) a =
      (h ++ [confDefaults (readCell h a),
             appendHostOpt (confDefaults (readCell h a)) "&:header_only=False",
             appendHostOpt (appendHostOpt (confDefaults (readCell h a))
               "&:header_only=False") "*:shared=True",
             appendHostOpt (appendHostOpt (confDefaults (readCell h a))
               "&:header_only=False") "*:shared=False",
             appendHostOpt (confDefaults (readCell h a)) "&:header_only=True"],
       acc ++ [h.length + 2, h.length + 3, h.length + 4]) := by
  simp [expandOneHeap, allocCell, readCell_append_len, readCell_append_len_add,
    writeCell_append_len, writeCell_append_len_add, readCell_c0, readCell_c1,
    readCell_c2, readCell_c3, readCell_c4, writeCell_c0, writeCell_c1,
    writeCell_c2, writeCell_c3, writeCell_c4,
    setdefaultBuildConf_setdefaultHostConf]

theorem expandOneHeap_tf (h : Heap) (acc : List Nat) (a : Nat) :
    expandOneHeap true false (h, acc) a =
      (h ++ [confDefaults (readCell h a),
             confDefaults (readCell h a),
             appendHostOpt (confDefaults (readCell h a)) "*:shared=True",
             appendHostOpt (confDefaults (readCell h a)) "*:shared=False"],
       acc ++ [h.length + 2, h.length + 3]) := by
  simp [expandOneHeap, allocCell, readCell_append_len, readCell_append_len_add,
    writeCell_append_len, writeCell_append_len_add, readCell_c0, readCell_c1,
    readCell_c2, readCell_c3, readCell_c4, writeCell_c0, writeCell_c1,
    writeCell_c2, writeCell_c3, writeCell_c4,
    setdefaultBuildConf_setdefaultHostConf]

theorem expandOneHeap_ft (h : Heap) (acc : List Nat) (a : Nat) :
    expandOneHeap false true (h, acc) a =
      (h ++ [confDefaults (readCell h a),
             appendHostOpt (confDefaults (readCell h a)) "&:header_only=True"],
       acc ++ [h.length + 1]) := by
  simp [expandOneHeap, allocCell, readCell_append_len, readCell_append_len_add,
    writeCell_append_len, writeCell_append_len_add, readCell_c0, readCell_c1,
    readCell_c2, readCell_c3, readCell_c4, writeCell_c0, writeCell_c1,
    writeCell_c2, writeCell_c3, writeCell_c4,
    setdefaultBuildConf_setdefaultHostConf]

theorem expandOneHeap_ff (h : Heap) (acc : List Nat) (a : Nat) :
    expandOneHeap false false (h, acc) a =
      (h ++ [confDefaults (readCell h a)], acc ++ [h.length]) := by
  simp [expandOneHeap, allocCell, readCell_append_len, readCell_append_len_add,
    writeCell_append_len, writeCell_append_len_add, readCell_c0, readCell_c1,
    readCell_c2, readCell_c3, readCell_c4, writeCell_c0, writeCell_c1,
    writeCell_c2, writeCell_c3, writeCell_c4,
    setdefaultBuildConf_setdefaultHostConf]

theorem expandOneHeap_spec (hS hH : Bool) (h : Heap) (acc : List Nat) (a : Nat) :
    ∃ (e : Heap) (newAddrs : List Nat),
      expandOneHeap hS hH (h, acc) a = (h ++ e, acc ++ newAddrs) ∧
      newAddrs.map (readCell (h ++ e)) = expandOne hS hH (readCell h a) ∧
      ∀ b ∈ newAddrs, b < (h ++ e).length := by
  cases hS <;> cases hH
  · refine ⟨_, _, expandOneHeap_ff h acc a, ?_, ?_⟩
    · simp [readCell_append_len, readCell_c0, expandOne]
    · intro b hb
      simp only [List.mem_cons, List.not_mem_nil, or_false] at hb
      simp only [List.length_append, List.length_cons, List.length_nil]
      omega
  · refine ⟨_, _, expandOneHeap_ft h acc a, ?_, ?_⟩
    · simp [readCell_append_len_add, readCell_c1, expandOne]
    · intro b hb
      simp only [List.mem_cons, List.not_mem_nil, or_false] at hb
      simp only [List.length_append, List.length_cons, List.length_nil]
      omega
  · refine ⟨_, _, expandOneHeap_tf h acc a, ?_, ?_⟩
    · simp [readCell_append_len_add, readCell_c2, readCell_c3, expandOne]
    · intro b hb
      simp only [List.mem_cons, List.not_mem_nil, or_false] at hb
      simp only [List.length_append, List.length_cons, List.length_nil]
      omega
  · refine ⟨_, _, expandOneHeap_tt h acc a, ?_, ?_⟩
    · simp [readCell_append_len_add, readCell_c2, readCell_c3, readCell_c4, expandOne]
    · intro b hb
      simp only [List.mem_cons, List.not_mem_nil, or_false] at hb
      simp only [List.length_append, List.length_cons, List.length_nil]
      omega

theorem expand_heap_fold_spec (hS hH : Bool) (addrs : List Nat) :
    ∀ (h : Heap) (acc : List Nat),
      (∀ a ∈ addrs, a < h.length) →
      (∀ b ∈ acc, b < h.length) →
      ∃ ext : Heap,
        (addrs.foldl (expandOneHeap hS hH) (h, acc)).1 = h ++ ext ∧
        (addrs.foldl (expandOneHeap hS hH) (h, acc)).2.map
            (readCell (addrs.foldl (expandOneHeap hS hH) (h, acc)).1) =
          acc.map (readCell h) ++ expand_profiles hS hH (addrs.map (readCell h)) ∧
        ∀ b ∈ (addrs.foldl (expandOneHeap hS hH) (h, acc)).2,
          b < (addrs.foldl (expandOneHeap hS hH) (h, acc)).1.length := by
  induction addrs with
  | nil =>
    intro h acc _ hacc
    exact ⟨[], by simp, by simp [expand_profiles], by simpa using hacc⟩
  | cons a rest ih =>
    intro h acc haddr hacc
    obtain ⟨e, na, heq, hvals, hbound⟩ := expandOneHeap_spec hS hH h acc a
    simp only [List.foldl_cons, heq]
    have haddr' : ∀ a' ∈ rest, a' < (h ++ e).length := by
      intro a' ha'
      have := haddr a' (List.mem_cons_of_mem _ ha')
      simp only [List.length_append]
      omega
    have hacc' : ∀ b ∈ acc ++ na, b < (h ++ e).length := by
      intro b hb
      rcases List.mem_append.1 hb with hb | hb
      · have := hacc b hb
        simp only [List.length_append]
        omega
      · exact hbound b hb
    obtain ⟨ext', h1, h2, h3⟩ := ih (h ++ e) (acc ++ na) haddr' hacc'
    refine ⟨e ++ ext', by rw [h1, List.append_assoc], ?_, h3⟩
    rw [h2]
    have hacc_read : acc.map (readCell (h ++ e)) = acc.map (readCell h) :=
      List.map_congr_left (fun b hb => readCell_append_of_lt h e b (hacc b hb))
    have hrest_read : rest.map (readCell (h ++ e)) = rest.map (readCell h) :=
      List.map_congr_left (fun b hb =>
        readCell_append_of_lt h e b (haddr b (List.mem_cons_of_mem _ hb)))
    rw [List.map_append, hacc_read, hvals, hrest_read]
    simp [expand_profiles]

/-- Claim C10: the heap model of `expand_profiles` never mutates the base
profile dicts of the profile map: the original heap is intact after the
call (the heap is only extended), every base dict address still reads its
old value, and the dicts at the returned addresses are exactly the pure
expansion of the original base profile values — so repeated calls always
expand the same base profiles. -/
theorem claim_C10 (hasShared hasHeader : Bool) (h : Heap) (addrs : List Nat)
    (haddr : ∀ a ∈ addrs, a < h.length) :
    ((expand_profiles_heap hasShared hasHeader h addrs).1).take h.length = h ∧
    (∀ a ∈ addrs,
      readCell (expand_profiles_heap hasShared hasHeader h addrs).1 a =
        readCell h a) ∧
    (expand_profiles_heap hasShared hasHeader h addrs).2.map
        (readCell (expand_profiles_heap hasShared hasHeader h addrs).1) =
      expand_profiles hasShared hasHeader (addrs.map (readCell h)) := by
  obtain ⟨ext, h1, h2, -⟩ := expand_heap_fold_spec hasShared hasHeader addrs h []
    haddr (by simp)
  refine ⟨?_, ?_, ?_⟩
  · simp only [expand_profiles_heap]
    rw [h1]
    exact List.take_left h ext
  · intro a ha
    simp only [expand_profiles_heap]
    rw [h1]
    exact readCell_append_of_lt h ext a (haddr a ha)
  · simp only [expand_profiles_heap]
    simpa using h2

/-- Witness for claim C10 at a concrete one-profile heap. -/
theorem claim_C10_witness :
    ((expand_profiles_heap true true [pW] [0]).1).take 1 = [pW] ∧
    readCell (expand_profiles_heap true true [pW] [0]).1 0 = readCell [pW] 0 := by
  obtain ⟨h1, h2, -⟩ := claim_C10 true true [pW] [0] (by simp)
  exact ⟨h1, h2 0 (List.mem_singleton_self 0)⟩

end ConanExt
